import Mathlib

/-!
Shallow embedding of `src/engine/timestamp.c` (the Jam / Boost.Build
file-timestamp cache) and proofs about it.

Modelling conventions:

* The `timestamp` struct (fields `time_t secs; int nsecs;`, declared in the
  external header `timestamp.h` and used throughout `timestamp.c`) is modelled
  with mathematical integers for the stored fields.  `time_t` is 64 bits wide
  on the targeted platforms while C `int` is 32 bits wide; the one place where
  the width difference is observable inside this file is `timestamp_cmp`,
  whose C body returns the `time_t`-wide difference through an `int` return
  type, i.e. truncated to 32 bits.  That truncation is made explicit via
  `toInt32` (two's-complement wrap-around, the behaviour of the targeted
  compilers for out-of-range signed conversions and for the subtraction).

* External collaborators (hashing, path normalization/decomposition, the
  directory/archive scanners, the `file_time` stat probe) are not part of this
  translation unit.  They enter the model as:
  - cache keys are the `String`s produced by the external `path_as_key`;
  - a `PathInfo` record carries, per query, the externally computed key of the
    path itself, of its parent directory (grist stripped, member stripped) and
    of its containing archive (grist and member stripped), plus whether the
    path has an archive-member component - exactly the values `timestamp.c`
    obtains from `path_parse` / `path_parent` / `path_build`;
  - a `Filesys` record gives the entry lists that `file_dirscan` /
    `file_archscan` would report through the `time_enter` callback (entry
    names already normalized, as `time_enter` itself applies `path_as_key`),
    and the `file_time` probe result (`none` models a negative return);
  - `hash_insert` is modelled with find-or-insert semantics on a functional
    map, matching the contract `timestamp.c` relies on (stable bindings, at
    most one binding per key).

* The hidden mutable state of the translation unit (the static `bindhash`
  plus, for stating the observable-scan claims, logs of the external calls
  made) is threaded explicitly as a `RunState`.  The static pointer itself -
  null before first use, live afterwards, and *dangling* after
  `timestamp_done` (which calls `hashdone` but never resets `bindhash` to 0) -
  is modelled by `HashPtr`; operations on the freed table are undefined
  behaviour and are modelled as `none`.
-/

/-- The `timestamp` value: `secs` models the `time_t secs` field and `nsecs`
the `int nsecs` field. -/
structure Timestamp where
  secs : Int
  nsecs : Int
deriving DecidableEq, Repr

/-- `timestamp_clear()` (timestamp.c lines 101-104): the zero/empty value. -/
def timestamp_clear : Timestamp := ⟨0, 0⟩

/-- `timestamp_copy()` (lines 115-119): plain value copy. -/
def timestamp_copy (source : Timestamp) : Timestamp := source

/-- `timestamp_init()` (lines 268-273). -/
def timestamp_init (secs nsecs : Int) : Timestamp := ⟨secs, nsecs⟩

/-- `timestamp_empty()` (lines 137-140): `!time->secs && !time->nsecs`. -/
def timestamp_empty (time : Timestamp) : Bool :=
  time.secs == 0 && time.nsecs == 0

/-- Two's-complement truncation of an integer to the 32-bit C `int` range
(numerals are 2^31 and 2^32).  This is what happens to a wider value returned
through the `int` return type of `timestamp_cmp`. -/
def toInt32 (x : Int) : Int :=
  (x + 2147483648) % 4294967296 - 2147483648

/-- `timestamp_cmp()` (lines 107-112): if the seconds agree, return
`lhs->nsecs - rhs->nsecs`, else return `lhs->secs - rhs->secs`.  Both
differences pass through the 32-bit `int` return value, hence `toInt32`. -/
def timestamp_cmp (lhs rhs : Timestamp) : Int :=
  if lhs.secs = rhs.secs then toInt32 (lhs.nsecs - rhs.nsecs)
  else toInt32 (lhs.secs - rhs.secs)

/-- `timestamp_max()` (lines 276-283). -/
def timestamp_max (lhs rhs : Timestamp) : Timestamp :=
  if 0 < timestamp_cmp lhs rhs then timestamp_copy lhs else timestamp_copy rhs

/-- The ordering described by the spec ("primarily by seconds, ties broken by
sub-second component"), stated from the spec's words so that `timestamp_cmp`
can be compared against it. -/
def specPrecedes (a b : Timestamp) : Prop :=
  a.secs < b.secs ∨ (a.secs = b.secs ∧ a.nsecs < b.nsecs)

instance (a b : Timestamp) : Decidable (specPrecedes a b) :=
  inferInstanceAs (Decidable (a.secs < b.secs ∨ (a.secs = b.secs ∧ a.nsecs < b.nsecs)))

/-- Discovery state of a binding: the `BIND_INIT` .. `BIND_FOUND` values of
the `progress` field (timestamp.c lines 48-52). -/
inductive Progress where
  | init
  | noentry
  | spotted
  | missing
  | found
deriving DecidableEq, Repr

/-- The `BINDING` record (lines 40-56).  `scanned` models the `BIND_SCANNED`
bit, the only bit ever used in `flags`. -/
structure Binding where
  name : String
  scanned : Bool
  progress : Progress
  time : Timestamp
deriving DecidableEq, Repr

/-- The binding table (`bindhash` contents): at most one binding per
normalized key. -/
abbrev Store := String → Option Binding

/-- Point update of the table. -/
def storeInsert (s : Store) (k : String) (b : Binding) : Store :=
  fun k' => if k' = k then some b else s k'

/-- The fields every caller in `timestamp_from_path` writes into a freshly
inserted binding (lines 168-173, 197-203, 230-236): copied name, zero flags,
`BIND_INIT`, cleared time. -/
def newBinding (k : String) : Binding :=
  ⟨k, false, Progress.init, timestamp_clear⟩

/-- `hash_insert` as used by `timestamp_from_path`: find-or-insert, returning
(`found`, the binding for the key, the updated table); a new binding is
initialized as in lines 168-173. -/
def hash_insert (s : Store) (k : String) : Bool × Binding × Store :=
  match s k with
  | some b => (true, b, s)
  | none => (false, newBinding k, storeInsert s k (newBinding k))

/-- The external filesystem/collaborator environment: what `file_dirscan` and
`file_archscan` would feed to the `time_enter` callback for each container
(entry key, `found` flag i.e. timestamp attached, timestamp), and what
`file_time` answers for a direct probe (`none` = negative return). -/
structure Filesys where
  dirEntries : String → List (String × Bool × Timestamp)
  archEntries : String → List (String × Bool × Timestamp)
  fileTime : String → Option Timestamp

/-- The externally computed path components a single `timestamp_from_path`
call works with: `key` is `path_as_key(path)`; `dirKey` is the parent
directory built at lines 189-194 (grist stripped, `path_parent`); `hasMember`
is the `f1.f_member.len` test of line 215; `archKey` is the archive path built
at lines 221-227 (grist and member stripped). -/
structure PathInfo where
  key : String
  dirKey : String
  hasMember : Bool
  archKey : String
deriving DecidableEq, Repr

/-- The mutable state of the translation unit during a run with a live table:
the `bindhash` contents plus instrumentation logs of the external calls
(`file_dirscan`, `file_archscan`, `file_time`) made so far - the observables
the spec's scan-counting properties talk about. -/
structure RunState where
  store : Store
  dirScans : List String
  archScans : List String
  probes : List String

/-- The state right after `hashinit` (line 162): empty table, nothing scanned
or probed yet. -/
def RunState.start : RunState :=
  ⟨fun _ => none, [], [], []⟩

/-- `time_enter()` (timestamp.c lines 301-325): find-or-insert the entry's
binding (a new one gets its name copied and zero flags, lines 311-315), then
*unconditionally* overwrite its time with the scanner-supplied one (line 317)
and set `progress` to `BIND_FOUND` if the scanner attached a timestamp, else
`BIND_SPOTTED` (line 318). -/
def time_enter (s : Store) (e : String × Bool × Timestamp) : Store :=
  match s e.1 with
  | some b =>
      storeInsert s e.1
        ⟨b.name, b.scanned, if e.2.1 then Progress.found else Progress.spotted,
          timestamp_copy e.2.2⟩
  | none =>
      storeInsert s e.1
        ⟨e.1, false, if e.2.1 then Progress.found else Progress.spotted,
          timestamp_copy e.2.2⟩

/-- `b->flags |= BIND_SCANNED` on the container binding, performed after the
scan returns (lines 208, 241). -/
def markScanned (s : Store) (k : String) : Store :=
  match s k with
  | some b => storeInsert s k ⟨b.name, true, b.progress, b.time⟩
  | none => s

/-- The directory block of `timestamp_from_path` (lines 183-212): ensure a
binding for the parent-directory key, and if it is not yet `BIND_SCANNED` run
`file_dirscan` (which drives `time_enter` once per entry) and then mark it
scanned.  The `dirScans` log records the `file_dirscan` invocation. -/
def dirPass (fs : Filesys) (d : String) (s : RunState) : RunState :=
  match hash_insert s.store d with
  | (_, db, st) =>
    if db.scanned then { s with store := st }
    else
      { s with
        store := markScanned ((fs.dirEntries d).foldl time_enter st) d,
        dirScans := s.dirScans ++ [d] }

/-- The archive block of `timestamp_from_path` (lines 215-245), same shape as
the directory block but driven by `file_archscan`. -/
def archPass (fs : Filesys) (a : String) (s : RunState) : RunState :=
  match hash_insert s.store a with
  | (_, ab, st) =>
    if ab.scanned then { s with store := st }
    else
      { s with
        store := markScanned ((fs.archEntries a).foldl time_enter st) a,
        archScans := s.archScans ++ [a] }

/-- Lines 164-245 of `timestamp_from_path`: find-or-insert the target
binding; if its `progress` is not `BIND_INIT` skip everything (the `goto
afterscanning` of line 176); otherwise set it to `BIND_NOENTRY` (line 178)
and run the directory pass and, when the path has an archive member, the
archive pass. -/
def scanPhase (fs : Filesys) (p : PathInfo) (s : RunState) : RunState :=
  match hash_insert s.store p.key with
  | (_, b, st) =>
    if b.progress ≠ Progress.init then { s with store := st }
    else
      let s1 : RunState :=
        { s with store := storeInsert st p.key ⟨b.name, b.scanned, Progress.noentry, b.time⟩ }
      let s2 := dirPass fs p.dirKey s1
      if p.hasMember then archPass fs p.archKey s2 else s2

/-- Lines 249-254 of `timestamp_from_path`: re-read the target binding; if it
is `BIND_SPOTTED`, call `file_time(b->name, &b->time)` - on success the
binding becomes `BIND_FOUND` with the probed time stored, on failure it
becomes `BIND_MISSING` (time left as it was).  The `probes` log records the
`file_time` invocation. -/
def probePhase (fs : Filesys) (k : String) (s : RunState) : RunState :=
  match s.store k with
  | none => s
  | some b =>
    if b.progress = Progress.spotted then
      match fs.fileTime b.name with
      | some t =>
          { s with
            store := storeInsert s.store k ⟨b.name, b.scanned, Progress.found, timestamp_copy t⟩,
            probes := s.probes ++ [b.name] }
      | none =>
          { s with
            store := storeInsert s.store k ⟨b.name, b.scanned, Progress.missing, b.time⟩,
            probes := s.probes ++ [b.name] }
    else s

/-- Lines 256-259 of `timestamp_from_path`: the returned value is a copy of
the binding's time when the final progress is `BIND_FOUND`, else the cleared
timestamp. -/
def returnPhase (k : String) (s : RunState) : Timestamp :=
  match s.store k with
  | some b => if b.progress = Progress.found then timestamp_copy b.time else timestamp_clear
  | none => timestamp_clear

/-- `timestamp_from_path()` (lines 147-265) given a live table: scanning
phase, probe phase, returned timestamp, with the resulting state. -/
def timestamp_from_path (fs : Filesys) (p : PathInfo) (s : RunState) : Timestamp × RunState :=
  let s2 := probePhase fs p.key (scanPhase fs p s)
  (returnPhase p.key s2, s2)

/-- One cache-mutating operation of a run: a `timestamp_from_path` query, or
one invocation of the `time_enter` scan-ingestion callback. -/
inductive CacheOp where
  | query (p : PathInfo)
  | scanEntry (k : String) (attached : Bool) (t : Timestamp)

/-- Apply one operation to the run state. -/
def applyOp (fs : Filesys) (s : RunState) : CacheOp → RunState
  | CacheOp.query p => (timestamp_from_path fs p s).2
  | CacheOp.scanEntry k attached t => { s with store := time_enter s.store (k, attached, t) }

/-- Apply a sequence of operations. -/
def runOps (fs : Filesys) (ops : List CacheOp) (s : RunState) : RunState :=
  ops.foldl (applyOp fs) s

/-- Fold a sequence of `timestamp_from_path` queries, keeping only the state. -/
def runQueries (fs : Filesys) (qs : List PathInfo) (s : RunState) : RunState :=
  qs.foldl (fun s p => (timestamp_from_path fs p s).2) s

/-- The static `bindhash` pointer of timestamp.c (line 58): null before the
first query, pointing at a live table during a run, and *dangling* after
`timestamp_done` - `hashdone` frees the table (line 347) but `bindhash` is
never reset to 0, so the pointer still tests non-null afterwards.  Touching
the freed table is undefined behaviour, modelled as `none` below. -/
inductive HashPtr where
  | null
  | live (s : RunState)
  | dangling

/-- `timestamp_from_path` including the lazy table creation of lines 161-162:
on a null pointer a fresh table is created first; on a live table the body
runs; on a dangling pointer the `!bindhash` test fails and the body runs on
the freed table - undefined behaviour, `none`. -/
def timestamp_from_path_run (fs : Filesys) (p : PathInfo) :
    HashPtr → Option (Timestamp × HashPtr)
  | HashPtr.null =>
      some ((timestamp_from_path fs p RunState.start).1,
        HashPtr.live (timestamp_from_path fs p RunState.start).2)
  | HashPtr.live s =>
      some ((timestamp_from_path fs p s).1, HashPtr.live (timestamp_from_path fs p s).2)
  | HashPtr.dangling => none

/-- `timestamp_done()` (lines 342-349): a no-op on a null pointer; on a live
table it frees every owned name and destroys the table (`hashdone`) but does
*not* null the pointer, leaving it dangling; calling it again on the dangling
pointer enumerates the freed table - undefined behaviour, `none`. -/
def timestamp_done : HashPtr → Option HashPtr
  | HashPtr.null => some HashPtr.null
  | HashPtr.live _ => some HashPtr.dangling
  | HashPtr.dangling => none

/-- "The table binds `k` to a binding whose progress satisfies `Q`": the shape
of every progress-state invariant proved below. -/
def ProgAt (Q : Progress → Prop) (st : Store) (k : String) : Prop :=
  ∃ b, st k = some b ∧ Q b.progress

/-- "The table binds `k` to a binding carrying the `BIND_SCANNED` flag." -/
def ScannedAt (st : Store) (k : String) : Prop :=
  ∃ b, st k = some b ∧ b.scanned = true

/-- A filesystem with no directory entries, no archive entries and a failing
probe - concrete collaborator environment for witnesses. -/
def fsEmpty : Filesys :=
  ⟨fun _ => [], fun _ => [], fun _ => none⟩

/-- A filesystem whose directory `"d"` contains the entry `"s"` reported
*without* an attached timestamp (an archive-listing-like `Spotted` entry),
and whose direct probe of `"s"` succeeds with time (9, 1). -/
def fsSpot : Filesys :=
  ⟨fun d => if d = "d" then [("s", false, ⟨3, 0⟩)] else [],
   fun _ => [],
   fun k => if k = "s" then some ⟨9, 1⟩ else none⟩

/-- Query for path `"f"` with parent directory `"d"`, no archive member. -/
def pF : PathInfo := ⟨"f", "d", false, ""⟩

/-- Query for path `"a"` with parent directory `"d"`, no archive member. -/
def pA : PathInfo := ⟨"a", "d", false, ""⟩

/-- Query for path `"b"` with parent directory `"d"`, no archive member. -/
def pB : PathInfo := ⟨"b", "d", false, ""⟩

/-- Query for path `"s"` with parent directory `"d"`, no archive member. -/
def pS : PathInfo := ⟨"s", "d", false, ""⟩

/-- A run state whose table binds `"x"` to a `BIND_FOUND` binding. -/
def sFound : RunState :=
  ⟨fun k => if k = "x" then some ⟨"x", false, Progress.found, ⟨5, 0⟩⟩ else none, [], [], []⟩

/-- A run state whose table binds `"f"` to a `BIND_MISSING` binding. -/
def sMiss : RunState :=
  ⟨fun k => if k = "f" then some ⟨"f", false, Progress.missing, ⟨0, 0⟩⟩ else none, [], [], []⟩

/-! ### Table-lookup lemmas -/

theorem storeInsert_self (s : Store) (k : String) (b : Binding) :
    storeInsert s k b k = some b := by
  simp [storeInsert]

theorem storeInsert_ne (s : Store) (k k' : String) (b : Binding) (h : k' ≠ k) :
    storeInsert s k b k' = s k' := by
  simp [storeInsert, h]

theorem hash_insert_found {s : Store} {k : String} {b : Binding} (h : s k = some b) :
    hash_insert s k = (true, b, s) := by
  unfold hash_insert
  rw [h]

theorem hash_insert_new {s : Store} {k : String} (h : s k = none) :
    hash_insert s k = (false, newBinding k, storeInsert s k (newBinding k)) := by
  unfold hash_insert
  rw [h]

theorem time_enter_ne {k : String} {e : String × Bool × Timestamp} (st : Store)
    (h : k ≠ e.1) : time_enter st e k = st k := by
  unfold time_enter
  rcases st e.1 <;> simp [storeInsert, h]

theorem time_enter_isSome {st : Store} {k : String} (e : String × Bool × Timestamp)
    (h : (st k).isSome) : (time_enter st e k).isSome := by
  by_cases hk : k = e.1
  · subst hk
    unfold time_enter
    rcases hst : st e.1 with _ | b <;> simp [hst, storeInsert]
  · rw [time_enter_ne st hk]
    exact h

/-! ### Preservation through `time_enter` and its folds -/

theorem time_enter_progAt {Q : Progress → Prop} (hf : Q Progress.found)
    (hs : Q Progress.spotted) {st : Store} {k : String} (e : String × Bool × Timestamp)
    (h : ProgAt Q st k) : ProgAt Q (time_enter st e) k := by
  obtain ⟨b, hb, hQ⟩ := h
  by_cases hk : k = e.1
  · subst hk
    unfold time_enter
    rcases hst : st e.1 with _ | b' <;>
      exact ⟨_, storeInsert_self _ _ _, by rcases e.2.1 <;> simpa using (by first | exact hf | exact hs)⟩
  · exact ⟨b, by rw [time_enter_ne st hk]; exact hb, hQ⟩

theorem time_enter_scannedAt {st : Store} {k : String} (e : String × Bool × Timestamp)
    (h : ScannedAt st k) : ScannedAt (time_enter st e) k := by
  obtain ⟨b, hb, hsc⟩ := h
  by_cases hk : k = e.1
  · subst hk
    unfold time_enter
    rw [hb]
    exact ⟨_, storeInsert_self _ _ _, hsc⟩
  · exact ⟨b, by rw [time_enter_ne st hk]; exact hb, hsc⟩

theorem foldl_time_enter_isSome {k : String} (es : List (String × Bool × Timestamp))
    {st : Store} (h : (st k).isSome) : ((es.foldl time_enter st) k).isSome := by
  induction es generalizing st with
  | nil => exact h
  | cons e es ih => exact ih (time_enter_isSome e h)

theorem foldl_time_enter_progAt {Q : Progress → Prop} (hf : Q Progress.found)
    (hs : Q Progress.spotted) {k : String} (es : List (String × Bool × Timestamp))
    {st : Store} (h : ProgAt Q st k) : ProgAt Q (es.foldl time_enter st) k := by
  induction es generalizing st with
  | nil => exact h
  | cons e es ih => exact ih (time_enter_progAt hf hs e h)

theorem foldl_time_enter_scannedAt {k : String} (es : List (String × Bool × Timestamp))
    {st : Store} (h : ScannedAt st k) : ScannedAt (es.foldl time_enter st) k := by
  induction es generalizing st with
  | nil => exact h
  | cons e es ih => exact ih (time_enter_scannedAt e h)

/-! ### Preservation through `markScanned` and `hash_insert` -/

theorem markScanned_progAt {Q : Progress → Prop} {st : Store} {k : String} (j : String)
    (h : ProgAt Q st k) : ProgAt Q (markScanned st j) k := by
  obtain ⟨b, hb, hQ⟩ := h
  unfold markScanned
  rcases hj : st j with _ | bj
  · exact ⟨b, hb, hQ⟩
  · by_cases hk : k = j
    · subst hk
      rw [hj] at hb
      cases hb
      exact ⟨⟨b.name, true, b.progress, b.time⟩, by simp [storeInsert, hj], hQ⟩
    · exact ⟨b, by simp [storeInsert, hk, hb], hQ⟩

theorem markScanned_scannedAt {st : Store} {k : String} (j : String)
    (h : ScannedAt st k) : ScannedAt (markScanned st j) k := by
  obtain ⟨b, hb, hsc⟩ := h
  unfold markScanned
  rcases hj : st j with _ | bj
  · exact ⟨b, hb, hsc⟩
  · by_cases hk : k = j
    · subst hk
      rw [hj] at hb
      cases hb
      exact ⟨⟨b.name, true, b.progress, b.time⟩, by simp [storeInsert, hj], rfl⟩
    · exact ⟨b, by simp [storeInsert, hk, hb], hsc⟩

theorem markScanned_self_scannedAt {st : Store} {k : String} (h : (st k).isSome) :
    ScannedAt (markScanned st k) k := by
  unfold markScanned
  rcases hk : st k with _ | b
  · rw [hk] at h
    simp at h
  · exact ⟨_, storeInsert_self _ _ _, rfl⟩

theorem hash_insert_store_isSome {st : Store} {k : String} (j : String)
    (h : (st k).isSome) : (((hash_insert st j).2.2) k).isSome := by
  unfold hash_insert
  rcases hj : st j with _ | bj
  · by_cases hk : k = j
    · subst hk
      simp [storeInsert]
    · simpa [storeInsert_ne _ _ _ _ hk] using h
  · exact h

theorem hash_insert_store_self (st : Store) (j : String) :
    (((hash_insert st j).2.2) j).isSome := by
  unfold hash_insert
  rcases hj : st j with _ | bj
  · simp [storeInsert]
  · simp [hj]

theorem hash_insert_store_progAt {Q : Progress → Prop} {st : Store} {k : String} (j : String)
    (h : ProgAt Q st k) : ProgAt Q (((hash_insert st j).2.2)) k := by
  obtain ⟨b, hb, hQ⟩ := h
  unfold hash_insert
  rcases hj : st j with _ | bj
  · by_cases hk : k = j
    · subst hk
      rw [hj] at hb
      cases hb
    · exact ⟨b, by simp [storeInsert, hk, hb], hQ⟩
  · exact ⟨b, hb, hQ⟩

theorem hash_insert_store_scannedAt {st : Store} {k : String} (j : String)
    (h : ScannedAt st k) : ScannedAt (((hash_insert st j).2.2)) k := by
  obtain ⟨b, hb, hsc⟩ := h
  unfold hash_insert
  rcases hj : st j with _ | bj
  · by_cases hk : k = j
    · subst hk
      rw [hj] at hb
      cases hb
    · exact ⟨b, by simp [storeInsert, hk, hb], hsc⟩
  · exact ⟨b, hb, hsc⟩

theorem markScanned_isSome {st : Store} {k : String} (j : String) (h : (st k).isSome) :
    ((markScanned st j) k).isSome := by
  unfold markScanned
  rcases hj : st j with _ | bj
  · exact h
  · by_cases hk : k = j
    · subst hk
      simp [storeInsert]
    · simpa [storeInsert, hk] using h

theorem storeInsert_isSome {s : Store} {k : String} (j : String) (b : Binding)
    (h : (s k).isSome) : ((storeInsert s j b) k).isSome := by
  by_cases hk : k = j <;> simp [storeInsert, hk, h]

/-! ### The directory and archive passes -/

theorem dirPass_of_scanned {s : RunState} {d : String} (fs : Filesys)
    (h : ScannedAt s.store d) : dirPass fs d s = s := by
  obtain ⟨b, hb, hsc⟩ := h
  unfold dirPass
  rw [hash_insert_found hb]
  simp [hsc]

theorem dirPass_of_not_scanned {s : RunState} {d : String} (fs : Filesys)
    (h : ∀ b, s.store d = some b → b.scanned = false) :
    (dirPass fs d s).dirScans = s.dirScans ++ [d] ∧
    ScannedAt (dirPass fs d s).store d ∧
    (dirPass fs d s).archScans = s.archScans ∧ (dirPass fs d s).probes = s.probes := by
  unfold dirPass
  rcases hd : s.store d with _ | db
  · rw [hash_insert_new hd]
    refine ⟨by simp [newBinding], ?_, by simp [newBinding], by simp [newBinding]⟩
    simp only [newBinding]
    have hpres : ((storeInsert s.store d (newBinding d)) d).isSome := by simp [storeInsert]
    exact markScanned_self_scannedAt (foldl_time_enter_isSome _ hpres)
  · rw [hash_insert_found hd]
    have hsc := h db hd
    refine ⟨by simp [hsc], ?_, by simp [hsc], by simp [hsc]⟩
    simp only [hsc]
    have : (s.store d).isSome := by simp [hd]
    simpa [hsc] using markScanned_self_scannedAt (foldl_time_enter_isSome _ this)

theorem dirPass_store_cases (fs : Filesys) (d : String) (s : RunState) :
    (dirPass fs d s).store = s.store ∨
    (dirPass fs d s).store = markScanned ((fs.dirEntries d).foldl time_enter s.store) d ∨
    (s.store d = none ∧ (dirPass fs d s).store =
      markScanned ((fs.dirEntries d).foldl time_enter (storeInsert s.store d (newBinding d))) d) := by
  unfold dirPass
  rcases hd : s.store d with _ | db
  · rw [hash_insert_new hd]
    right; right
    exact ⟨rfl, by simp [newBinding]⟩
  · rw [hash_insert_found hd]
    by_cases hsc : db.scanned
    · left
      simp [hsc]
    · right; left
      simp [hsc]

theorem dirPass_dirScans_cases (fs : Filesys) (d : String) (s : RunState) :
    (dirPass fs d s).dirScans = s.dirScans ∨ (dirPass fs d s).dirScans = s.dirScans ++ [d] := by
  unfold dirPass
  rcases hd : s.store d with _ | db
  · rw [hash_insert_new hd]
    right
    simp [newBinding]
  · rw [hash_insert_found hd]
    by_cases hsc : db.scanned
    · left
      simp [hsc]
    · right
      simp [hsc]

theorem dirPass_archScans (fs : Filesys) (d : String) (s : RunState) :
    (dirPass fs d s).archScans = s.archScans := by
  unfold dirPass
  rcases hd : s.store d with _ | db
  · rw [hash_insert_new hd]
    simp [newBinding]
  · rw [hash_insert_found hd]
    by_cases hsc : db.scanned <;> simp [hsc]

theorem dirPass_isSome {s : RunState} {k : String} (fs : Filesys) (d : String)
    (h : (s.store k).isSome) : ((dirPass fs d s).store k).isSome := by
  rcases dirPass_store_cases fs d s with hc | hc | ⟨hd, hc⟩ <;> rw [hc]
  · exact h
  · exact markScanned_isSome _ (foldl_time_enter_isSome _ h)
  · exact markScanned_isSome _ (foldl_time_enter_isSome _ (storeInsert_isSome _ _ h))

theorem dirPass_progAt {Q : Progress → Prop} (hf : Q Progress.found) (hs : Q Progress.spotted)
    {s : RunState} {k : String} (fs : Filesys) (d : String)
    (h : ProgAt Q s.store k) : ProgAt Q (dirPass fs d s).store k := by
  rcases dirPass_store_cases fs d s with hc | hc | ⟨hd, hc⟩ <;> rw [hc]
  · exact h
  · exact markScanned_progAt _ (foldl_time_enter_progAt hf hs _ h)
  · refine markScanned_progAt _ (foldl_time_enter_progAt hf hs _ ?_)
    obtain ⟨b, hb, hQ⟩ := h
    have hk : k ≠ d := fun he => by rw [he, hd] at hb; cases hb
    exact ⟨b, by simp [storeInsert, hk, hb], hQ⟩

theorem dirPass_scannedAt {s : RunState} {k : String} (fs : Filesys) (d : String)
    (h : ScannedAt s.store k) : ScannedAt (dirPass fs d s).store k := by
  rcases dirPass_store_cases fs d s with hc | hc | ⟨hd, hc⟩ <;> rw [hc]
  · exact h
  · exact markScanned_scannedAt _ (foldl_time_enter_scannedAt _ h)
  · refine markScanned_scannedAt _ (foldl_time_enter_scannedAt _ ?_)
    obtain ⟨b, hb, hsc⟩ := h
    have hk : k ≠ d := fun he => by rw [he, hd] at hb; cases hb
    exact ⟨b, by simp [storeInsert, hk, hb], hsc⟩

theorem archPass_of_scanned {s : RunState} {a : String} (fs : Filesys)
    (h : ScannedAt s.store a) : archPass fs a s = s := by
  obtain ⟨b, hb, hsc⟩ := h
  unfold archPass
  rw [hash_insert_found hb]
  simp [hsc]

theorem archPass_store_cases (fs : Filesys) (a : String) (s : RunState) :
    (archPass fs a s).store = s.store ∨
    (archPass fs a s).store = markScanned ((fs.archEntries a).foldl time_enter s.store) a ∨
    (s.store a = none ∧ (archPass fs a s).store =
      markScanned ((fs.archEntries a).foldl time_enter (storeInsert s.store a (newBinding a))) a) := by
  unfold archPass
  rcases ha : s.store a with _ | ab
  · rw [hash_insert_new ha]
    right; right
    exact ⟨rfl, by simp [newBinding]⟩
  · rw [hash_insert_found ha]
    by_cases hsc : ab.scanned
    · left
      simp [hsc]
    · right; left
      simp [hsc]

theorem archPass_dirScans (fs : Filesys) (a : String) (s : RunState) :
    (archPass fs a s).dirScans = s.dirScans := by
  unfold archPass
  rcases ha : s.store a with _ | ab
  · rw [hash_insert_new ha]
    simp [newBinding]
  · rw [hash_insert_found ha]
    by_cases hsc : ab.scanned <;> simp [hsc]

theorem archPass_isSome {s : RunState} {k : String} (fs : Filesys) (a : String)
    (h : (s.store k).isSome) : ((archPass fs a s).store k).isSome := by
  rcases archPass_store_cases fs a s with hc | hc | ⟨ha, hc⟩ <;> rw [hc]
  · exact h
  · exact markScanned_isSome _ (foldl_time_enter_isSome _ h)
  · exact markScanned_isSome _ (foldl_time_enter_isSome _ (storeInsert_isSome _ _ h))

theorem archPass_progAt {Q : Progress → Prop} (hf : Q Progress.found) (hs : Q Progress.spotted)
    {s : RunState} {k : String} (fs : Filesys) (a : String)
    (h : ProgAt Q s.store k) : ProgAt Q (archPass fs a s).store k := by
  rcases archPass_store_cases fs a s with hc | hc | ⟨ha, hc⟩ <;> rw [hc]
  · exact h
  · exact markScanned_progAt _ (foldl_time_enter_progAt hf hs _ h)
  · refine markScanned_progAt _ (foldl_time_enter_progAt hf hs _ ?_)
    obtain ⟨b, hb, hQ⟩ := h
    have hk : k ≠ a := fun he => by rw [he, ha] at hb; cases hb
    exact ⟨b, by simp [storeInsert, hk, hb], hQ⟩

theorem archPass_scannedAt {s : RunState} {k : String} (fs : Filesys) (a : String)
    (h : ScannedAt s.store k) : ScannedAt (archPass fs a s).store k := by
  rcases archPass_store_cases fs a s with hc | hc | ⟨ha, hc⟩ <;> rw [hc]
  · exact h
  · exact markScanned_scannedAt _ (foldl_time_enter_scannedAt _ h)
  · refine markScanned_scannedAt _ (foldl_time_enter_scannedAt _ ?_)
    obtain ⟨b, hb, hsc⟩ := h
    have hk : k ≠ a := fun he => by rw [he, ha] at hb; cases hb
    exact ⟨b, by simp [storeInsert, hk, hb], hsc⟩

/-! ### The probe phase -/

theorem probePhase_dirScans (fs : Filesys) (k : String) (s : RunState) :
    (probePhase fs k s).dirScans = s.dirScans := by
  unfold probePhase
  rcases hk : s.store k with _ | b
  · rfl
  · by_cases hb : b.progress = Progress.spotted
    · rcases hft : fs.fileTime b.name with _ | t <;> simp [hb, hft]
    · simp [hb]

theorem probePhase_archScans (fs : Filesys) (k : String) (s : RunState) :
    (probePhase fs k s).archScans = s.archScans := by
  unfold probePhase
  rcases hk : s.store k with _ | b
  · rfl
  · by_cases hb : b.progress = Progress.spotted
    · rcases hft : fs.fileTime b.name with _ | t <;> simp [hb, hft]
    · simp [hb]

theorem probePhase_isSome {s : RunState} {d : String} (fs : Filesys) (k : String)
    (h : (s.store d).isSome) : ((probePhase fs k s).store d).isSome := by
  unfold probePhase
  rcases hk : s.store k with _ | b
  · exact h
  · by_cases hb : b.progress = Progress.spotted
    · rcases hft : fs.fileTime b.name with _ | t <;> simp only [hb, hft, if_true, reduceIte] <;>
        exact storeInsert_isSome _ _ h
    · simp [hb]
      exact h

theorem probePhase_progAt {Q : Progress → Prop} (hf : Q Progress.found)
    (hm : Q Progress.missing) {s : RunState} {d : String} (fs : Filesys) (k : String)
    (h : ProgAt Q s.store d) : ProgAt Q (probePhase fs k s).store d := by
  obtain ⟨b0, hb0, hQ⟩ := h
  unfold probePhase
  rcases hk : s.store k with _ | b
  · exact ⟨b0, hb0, hQ⟩
  · by_cases hb : b.progress = Progress.spotted
    · have step : ∀ pr : Progress, Q pr → ∀ tt : Timestamp,
          ProgAt Q (storeInsert s.store k ⟨b.name, b.scanned, pr, tt⟩) d := by
        intro pr hpr tt
        by_cases hd : d = k
        · subst hd
          exact ⟨_, storeInsert_self _ _ _, hpr⟩
        · exact ⟨b0, by simp [storeInsert, hd, hb0], hQ⟩
      rcases hft : fs.fileTime b.name with _ | t <;> simp only [hb, hft, if_true, reduceIte] <;>
        first
          | exact step _ hm _
          | exact step _ hf _
    · simp [hb]
      exact ⟨b0, hb0, hQ⟩

theorem probePhase_scannedAt {s : RunState} {d : String} (fs : Filesys) (k : String)
    (h : ScannedAt s.store d) : ScannedAt (probePhase fs k s).store d := by
  obtain ⟨b0, hb0, hsc0⟩ := h
  unfold probePhase
  rcases hk : s.store k with _ | b
  · exact ⟨b0, hb0, hsc0⟩
  · by_cases hb : b.progress = Progress.spotted
    · have step : ∀ pr : Progress, ∀ tt : Timestamp,
          ScannedAt (storeInsert s.store k ⟨b.name, b.scanned, pr, tt⟩) d := by
        intro pr tt
        by_cases hd : d = k
        · subst hd
          rw [hb0] at hk
          cases hk
          exact ⟨_, storeInsert_self _ _ _, hsc0⟩
        · exact ⟨b0, by simp [storeInsert, hd, hb0], hsc0⟩
      rcases hft : fs.fileTime b.name with _ | t <;> simp only [hb, hft, if_true, reduceIte] <;>
        exact step _ _
    · simp [hb]
      exact ⟨b0, hb0, hsc0⟩

theorem probePhase_of_not_spotted {s : RunState} {k : String} {b : Binding} (fs : Filesys)
    (hb : s.store k = some b) (hns : b.progress ≠ Progress.spotted) :
    probePhase fs k s = s := by
  unfold probePhase
  rw [hb]
  simp [hns]

theorem probePhase_spotted_success {s : RunState} {k : String} {b : Binding} {t : Timestamp}
    (fs : Filesys) (hb : s.store k = some b) (hsp : b.progress = Progress.spotted)
    (hft : fs.fileTime b.name = some t) :
    probePhase fs k s =
      { s with
        store := storeInsert s.store k ⟨b.name, b.scanned, Progress.found, timestamp_copy t⟩,
        probes := s.probes ++ [b.name] } := by
  unfold probePhase
  rw [hb]
  simp [hsp, hft]

theorem probePhase_spotted_failure {s : RunState} {k : String} {b : Binding} (fs : Filesys)
    (hb : s.store k = some b) (hsp : b.progress = Progress.spotted)
    (hft : fs.fileTime b.name = none) :
    probePhase fs k s =
      { s with
        store := storeInsert s.store k ⟨b.name, b.scanned, Progress.missing, b.time⟩,
        probes := s.probes ++ [b.name] } := by
  unfold probePhase
  rw [hb]
  simp [hsp, hft]

theorem returnPhase_eq {s : RunState} {k : String} {b : Binding} (hb : s.store k = some b) :
    returnPhase k s =
      if b.progress = Progress.found then timestamp_copy b.time else timestamp_clear := by
  unfold returnPhase
  rw [hb]

/-! ### The scanning phase -/

theorem scanPhase_cases (fs : Filesys) (p : PathInfo) (s : RunState) :
    (∃ b, s.store p.key = some b ∧ b.progress ≠ Progress.init ∧ scanPhase fs p s = s) ∨
    (∃ st1 : Store,
      (∀ k, k ≠ p.key → st1 k = s.store k) ∧
      (∃ b1, st1 p.key = some b1 ∧ b1.progress = Progress.noentry ∧
        (∀ b0, s.store p.key = some b0 →
          b0.progress = Progress.init ∧ b1.scanned = b0.scanned ∧ b1.name = b0.name ∧
            b1.time = b0.time) ∧
        (s.store p.key = none → b1 = ⟨p.key, false, Progress.noentry, timestamp_clear⟩)) ∧
      scanPhase fs p s =
        (if p.hasMember then archPass fs p.archKey (dirPass fs p.dirKey { s with store := st1 })
         else dirPass fs p.dirKey { s with store := st1 })) := by
  unfold scanPhase
  rcases hk : s.store p.key with _ | b
  · rw [hash_insert_new hk]
    right
    refine ⟨storeInsert (storeInsert s.store p.key (newBinding p.key)) p.key
      ⟨p.key, false, Progress.noentry, timestamp_clear⟩, ?_, ?_, ?_⟩
    · intro k hk'
      simp [storeInsert, hk']
    · exact ⟨_, storeInsert_self _ _ _, rfl, fun b0 h0 => Option.noConfusion h0, fun _ => rfl⟩
    · simp [newBinding]
  · rw [hash_insert_found hk]
    by_cases hbi : b.progress = Progress.init
    · right
      refine ⟨storeInsert s.store p.key ⟨b.name, b.scanned, Progress.noentry, b.time⟩, ?_, ?_, ?_⟩
      · intro k hk'
        simp [storeInsert, hk']
      · refine ⟨_, storeInsert_self _ _ _, rfl, fun b0 h0 => ?_, fun h0 => by cases h0⟩
        cases h0
        exact ⟨hbi, rfl, rfl, rfl⟩
      · simp [hbi]
    · left
      exact ⟨b, rfl, hbi, by simp [hbi]⟩

theorem scanPhase_progAt {Q : Progress → Prop} (hf : Q Progress.found) (hs : Q Progress.spotted)
    (hn : ¬Q Progress.init) {s : RunState} {k : String} (fs : Filesys) (p : PathInfo)
    (h : ProgAt Q s.store k) : ProgAt Q (scanPhase fs p s).store k := by
  rcases scanPhase_cases fs p s with ⟨b, _, _, heq⟩ | ⟨st1, hne, ⟨b1, hb1, hb1p, hsome, _⟩, heq⟩
  · rw [heq]
    exact h
  · rw [heq]
    obtain ⟨b0, hb0, hQ0⟩ := h
    have hbase : ProgAt Q st1 k := by
      by_cases hkk : k = p.key
      · subst hkk
        exact absurd ((hsome b0 hb0).1 ▸ hQ0) hn
      · exact ⟨b0, (hne k hkk).trans hb0, hQ0⟩
    have hbase' : ProgAt Q ({ s with store := st1 } : RunState).store k := hbase
    by_cases hm : p.hasMember <;> simp only [hm, if_true, if_false]
    · exact archPass_progAt hf hs _ _ (dirPass_progAt hf hs _ _ hbase')
    · exact dirPass_progAt hf hs _ _ hbase'

theorem scanPhase_scannedAt {s : RunState} {k : String} (fs : Filesys) (p : PathInfo)
    (h : ScannedAt s.store k) : ScannedAt (scanPhase fs p s).store k := by
  rcases scanPhase_cases fs p s with ⟨b, _, _, heq⟩ | ⟨st1, hne, ⟨b1, hb1, hb1p, hsome, _⟩, heq⟩
  · rw [heq]
    exact h
  · rw [heq]
    obtain ⟨b0, hb0, hsc0⟩ := h
    have hbase : ScannedAt st1 k := by
      by_cases hkk : k = p.key
      · subst hkk
        exact ⟨b1, hb1, ((hsome b0 hb0).2.1).trans hsc0⟩
      · exact ⟨b0, (hne k hkk).trans hb0, hsc0⟩
    have hbase' : ScannedAt ({ s with store := st1 } : RunState).store k := hbase
    by_cases hm : p.hasMember <;> simp only [hm, if_true, if_false]
    · exact archPass_scannedAt _ _ (dirPass_scannedAt _ _ hbase')
    · exact dirPass_scannedAt _ _ hbase'

theorem scanPhase_isSome {s : RunState} {k : String} (fs : Filesys) (p : PathInfo)
    (h : (s.store k).isSome) : ((scanPhase fs p s).store k).isSome := by
  rcases scanPhase_cases fs p s with ⟨b, _, _, heq⟩ | ⟨st1, hne, ⟨b1, hb1, hb1p, hsome, _⟩, heq⟩
  · rw [heq]
    exact h
  · rw [heq]
    have hbase : ((({ s with store := st1 } : RunState).store) k).isSome := by
      by_cases hkk : k = p.key
      · subst hkk
        simp [hb1]
      · show (st1 k).isSome
        rw [hne k hkk]
        exact h
    by_cases hm : p.hasMember <;> simp only [hm, if_true, if_false]
    · exact archPass_isSome _ _ (dirPass_isSome _ _ hbase)
    · exact dirPass_isSome _ _ hbase

theorem scanPhase_notInit (fs : Filesys) (p : PathInfo) (s : RunState) :
    ProgAt (fun pr => pr ≠ Progress.init) (scanPhase fs p s).store p.key := by
  rcases scanPhase_cases fs p s with ⟨b, hb, hbi, heq⟩ | ⟨st1, hne, ⟨b1, hb1, hb1p, hsome, _⟩, heq⟩
  · rw [heq]
    exact ⟨b, hb, hbi⟩
  · rw [heq]
    have hbase : ProgAt (fun pr => pr ≠ Progress.init) ({ s with store := st1 } : RunState).store p.key :=
      ⟨b1, hb1, by simp [hb1p]⟩
    by_cases hm : p.hasMember <;> simp only [hm, if_true, if_false]
    · exact archPass_progAt (by simp) (by simp) _ _ (dirPass_progAt (by simp) (by simp) _ _ hbase)
    · exact dirPass_progAt (by simp) (by simp) _ _ hbase

theorem scanPhase_count {s : RunState} {d : String} (fs : Filesys) (p : PathInfo)
    (h : ScannedAt s.store d) :
    List.count d (scanPhase fs p s).dirScans = List.count d s.dirScans := by
  rcases scanPhase_cases fs p s with ⟨b, _, _, heq⟩ | ⟨st1, hne, ⟨b1, hb1, hb1p, hsome, _⟩, heq⟩
  · rw [heq]
  · rw [heq]
    obtain ⟨b0, hb0, hsc0⟩ := h
    have hbase : ScannedAt ({ s with store := st1 } : RunState).store d := by
      by_cases hkk : d = p.key
      · subst hkk
        exact ⟨b1, hb1, ((hsome b0 hb0).2.1).trans hsc0⟩
      · exact ⟨b0, (hne d hkk).trans hb0, hsc0⟩
    have hdir : List.count d (dirPass fs p.dirKey { s with store := st1 }).dirScans =
        List.count d s.dirScans := by
      by_cases hdd : p.dirKey = d
      · subst hdd
        rw [dirPass_of_scanned fs hbase]
      · rcases dirPass_dirScans_cases fs p.dirKey { s with store := st1 } with hc | hc <;> rw [hc]
        simp [List.count_append, List.count_cons, hdd]
    by_cases hm : p.hasMember <;> simp only [hm, if_true, if_false]
    · rw [archPass_dirScans]
      exact hdir
    · exact hdir

theorem scanPhase_of_not_init {s : RunState} {b : Binding} (fs : Filesys) (p : PathInfo)
    (hb : s.store p.key = some b) (hbi : b.progress ≠ Progress.init) :
    scanPhase fs p s = s := by
  rcases scanPhase_cases fs p s with ⟨b', _, _, heq⟩ | ⟨st1, _, ⟨b1, _, _, hsome, _⟩, heq⟩
  · exact heq
  · exact absurd (hsome b hb).1 hbi

theorem resolve_afterAt (fs : Filesys) (p : PathInfo) (s : RunState) :
    ProgAt (fun pr => pr = Progress.noentry ∨ pr = Progress.missing ∨ pr = Progress.found)
      ((timestamp_from_path fs p s).2).store p.key := by
  obtain ⟨b, hb, hbi⟩ := scanPhase_notInit fs p s
  show ProgAt _ (probePhase fs p.key (scanPhase fs p s)).store p.key
  unfold probePhase
  rw [hb]
  by_cases hsp : b.progress = Progress.spotted
  · rcases hft : fs.fileTime b.name with _ | t <;> simp only [hsp, hft, if_true, reduceIte] <;>
      exact ⟨_, storeInsert_self _ _ _, by simp⟩
  · simp only [hsp, if_false, reduceIte]
    refine ⟨b, hb, ?_⟩
    rcases hpr : b.progress with _ | _ | _ | _ | _ <;> simp_all

theorem resolve_scanned_step {s : RunState} {d : String} (fs : Filesys) (p : PathInfo)
    (h : ScannedAt s.store d) :
    ScannedAt ((timestamp_from_path fs p s).2).store d ∧
    List.count d ((timestamp_from_path fs p s).2).dirScans = List.count d s.dirScans := by
  constructor
  · exact probePhase_scannedAt _ _ (scanPhase_scannedAt _ _ h)
  · show List.count d (probePhase fs p.key (scanPhase fs p s)).dirScans = _
    rw [probePhase_dirScans]
    exact scanPhase_count fs p h

theorem resolve_start (fs : Filesys) (p : PathInfo) :
    ScannedAt ((timestamp_from_path fs p RunState.start).2).store p.dirKey ∧
    List.count p.dirKey ((timestamp_from_path fs p RunState.start).2).dirScans = 1 := by
  rcases scanPhase_cases fs p RunState.start with ⟨b, hb, _, _⟩ |
    ⟨st1, hne, ⟨b1, hb1, hb1p, hsome, hnone⟩, heq⟩
  · exact Option.noConfusion hb
  · have hb1sc : b1.scanned = false := by
      rw [hnone rfl]
    have huns : ∀ b, ({ RunState.start with store := st1 } : RunState).store p.dirKey = some b →
        b.scanned = false := by
      intro b hbd
      by_cases hkk : p.dirKey = p.key
      · rw [hkk] at hbd
        rw [show ({ RunState.start with store := st1 } : RunState).store = st1 from rfl] at hbd
        rw [hb1] at hbd
        cases hbd
        exact hb1sc
      · rw [show ({ RunState.start with store := st1 } : RunState).store = st1 from rfl,
          hne _ hkk] at hbd
        exact Option.noConfusion hbd
    obtain ⟨hdscans, hscan, _, _⟩ := dirPass_of_not_scanned fs huns
    have hstep : ScannedAt (scanPhase fs p RunState.start).store p.dirKey ∧
        (scanPhase fs p RunState.start).dirScans = [p.dirKey] := by
      rw [heq]
      by_cases hm : p.hasMember <;> simp only [hm, if_true, if_false]
      · exact ⟨archPass_scannedAt _ _ hscan, by rw [archPass_dirScans]; simpa using hdscans⟩
      · exact ⟨hscan, by simpa using hdscans⟩
    constructor
    · exact probePhase_scannedAt _ _ hstep.1
    · show List.count p.dirKey (probePhase fs p.key (scanPhase fs p RunState.start)).dirScans = 1
      rw [probePhase_dirScans, hstep.2]
      simp

theorem runQueries_preserve {d : String} (fs : Filesys) (qs : List PathInfo) :
    ∀ s : RunState, ScannedAt s.store d →
      ScannedAt (runQueries fs qs s).store d ∧
      List.count d (runQueries fs qs s).dirScans = List.count d s.dirScans := by
  induction qs with
  | nil => exact fun s h => ⟨h, rfl⟩
  | cons q qs ih =>
    intro s h
    obtain ⟨h1, h2⟩ := resolve_scanned_step fs q h
    obtain ⟨h3, h4⟩ := ih _ h1
    refine ⟨h3, ?_⟩
    rw [show runQueries fs (q :: qs) s = runQueries fs qs ((timestamp_from_path fs q s).2) from rfl,
      h4, h2]

theorem applyOp_goodAt {s : RunState} {k : String} (fs : Filesys) (op : CacheOp)
    (h : ProgAt (fun pr => pr ≠ Progress.init ∧ pr ≠ Progress.noentry) s.store k) :
    ProgAt (fun pr => pr ≠ Progress.init ∧ pr ≠ Progress.noentry) (applyOp fs s op).store k := by
  cases op with
  | query p =>
      show ProgAt _ (probePhase fs p.key (scanPhase fs p s)).store k
      exact probePhase_progAt (by simp) (by simp) _ _
        (scanPhase_progAt (by simp) (by simp) (by simp) _ _ h)
  | scanEntry j att t =>
      exact time_enter_progAt (by simp) (by simp) _ h

theorem runOps_goodAt {k : String} (fs : Filesys) (ops : List CacheOp) :
    ∀ s : RunState, ProgAt (fun pr => pr ≠ Progress.init ∧ pr ≠ Progress.noentry) s.store k →
      ProgAt (fun pr => pr ≠ Progress.init ∧ pr ≠ Progress.noentry) (runOps fs ops s).store k := by
  induction ops with
  | nil => exact fun s h => h
  | cons op ops ih =>
    intro s h
    exact ih _ (applyOp_goodAt fs op h)

/-! ### Arithmetic facts about the 32-bit truncation -/

theorem toInt32_eq_self {x : Int} (h1 : -2147483648 ≤ x) (h2 : x < 2147483648) :
    toInt32 x = x := by
  unfold toInt32
  omega

theorem timestamp_cmp_self (a : Timestamp) : timestamp_cmp a a = 0 := by
  simp [timestamp_cmp, toInt32]

theorem timestamp_cmp_antisymm {a b : Timestamp}
    (hs1 : -2147483648 < a.secs - b.secs) (hs2 : a.secs - b.secs < 2147483648)
    (hn1 : -2147483648 < a.nsecs - b.nsecs) (hn2 : a.nsecs - b.nsecs < 2147483648) :
    timestamp_cmp b a = -timestamp_cmp a b := by
  unfold timestamp_cmp
  by_cases hs : a.secs = b.secs
  · rw [if_pos hs.symm, if_pos hs, toInt32_eq_self (by omega) (by omega),
      toInt32_eq_self (by omega) (by omega)]
    ring
  · rw [if_neg (fun h => hs h.symm), if_neg hs, toInt32_eq_self (by omega) (by omega),
      toInt32_eq_self (by omega) (by omega)]
    ring

/-! ### The claims -/

/-- C1: for every sequence of `timestamp_from_path` calls within one run,
and for N distinct queried paths sharing the same parent directory `d`, the
external directory scan `file_dirscan` is invoked exactly once for `d`,
regardless of the order or number of the queries. -/
theorem C1_dirscan_once (fs : Filesys) (d : String) (qs : List PathInfo) (hne : qs ≠ [])
    (hd : ∀ p ∈ qs, p.dirKey = d) (hdist : qs.Pairwise (fun a b => a.key ≠ b.key)) :
    List.count d (runQueries fs qs RunState.start).dirScans = 1 := by
  rcases qs with _ | ⟨q, qs⟩
  · exact absurd rfl hne
  · have hq : q.dirKey = d := hd q (List.mem_cons_self q qs)
    obtain ⟨hscan, hcount⟩ := resolve_start fs q
    rw [hq] at hscan hcount
    obtain ⟨_, h4⟩ := runQueries_preserve fs qs _ hscan
    rw [show runQueries fs (q :: qs) RunState.start =
      runQueries fs qs ((timestamp_from_path fs q RunState.start).2) from rfl, h4, hcount]

/-- Witness for C1 at a concrete input: two distinct paths under parent
`"d"`, scanned against the empty filesystem. -/
theorem C1_witness :
    (([pA, pB] : List PathInfo) ≠ [] ∧ (∀ p ∈ [pA, pB], p.dirKey = "d") ∧
      ([pA, pB] : List PathInfo).Pairwise (fun a b => a.key ≠ b.key)) ∧
    List.count "d" (runQueries fsEmpty [pA, pB] RunState.start).dirScans = 1 :=
  ⟨⟨by decide, by decide, by decide⟩,
    C1_dirscan_once fsEmpty "d" [pA, pB] (by decide) (by decide) (by decide)⟩

/-- C2: a second `timestamp_from_path` for the same path with no intervening
filesystem change returns the same timestamp and leaves the whole run state -
including the `file_dirscan` / `file_archscan` / `file_time` logs - exactly as
it was, i.e. the second call performs no directory or archive scan. -/
theorem C2_idempotent (fs : Filesys) (p : PathInfo) (s : RunState) :
    timestamp_from_path fs p ((timestamp_from_path fs p s).2) = timestamp_from_path fs p s := by
  obtain ⟨b, hb, hbp⟩ := resolve_afterAt fs p s
  have hbi : b.progress ≠ Progress.init := by rcases hbp with h | h | h <;> simp [h]
  have hbs : b.progress ≠ Progress.spotted := by rcases hbp with h | h | h <;> simp [h]
  have h1 : scanPhase fs p ((timestamp_from_path fs p s).2) = (timestamp_from_path fs p s).2 :=
    scanPhase_of_not_init fs p hb hbi
  have h2 : probePhase fs p.key ((timestamp_from_path fs p s).2) = (timestamp_from_path fs p s).2 :=
    probePhase_of_not_spotted fs hb hbs
  show (returnPhase p.key (probePhase fs p.key (scanPhase fs p ((timestamp_from_path fs p s).2))),
      probePhase fs p.key (scanPhase fs p ((timestamp_from_path fs p s).2))) =
    timestamp_from_path fs p s
  rw [h1, h2]
  rfl

/-- C3: `timestamp_from_path` returns a copy of the binding's stored time
exactly when the binding's final progress is `BIND_FOUND`, and the zero/empty
timestamp (for which `timestamp_empty` holds) in every other case - in
particular for paths that do not exist. -/
theorem C3_found_or_empty (fs : Filesys) (p : PathInfo) (s : RunState) :
    ∃ b, ((timestamp_from_path fs p s).2).store p.key = some b ∧
      (b.progress = Progress.found → (timestamp_from_path fs p s).1 = timestamp_copy b.time) ∧
      (b.progress ≠ Progress.found →
        (timestamp_from_path fs p s).1 = timestamp_clear ∧
        timestamp_empty (timestamp_from_path fs p s).1 = true) := by
  obtain ⟨b, hb, _⟩ := resolve_afterAt fs p s
  have heq1 : (timestamp_from_path fs p s).1 =
      if b.progress = Progress.found then timestamp_copy b.time else timestamp_clear :=
    returnPhase_eq hb
  refine ⟨b, hb, fun hf => by rw [heq1, if_pos hf], fun hnf => ?_⟩
  rw [heq1, if_neg hnf]
  exact ⟨rfl, rfl⟩

/-- C4: in `timestamp_from_path`, right after the scanning phase, a direct
`file_time` probe is attempted if and only if the target binding's progress
is `BIND_SPOTTED` (the probe log grows by the probed name exactly in that
case): on probe success the binding becomes `BIND_FOUND` with the probed time
stored, on probe failure it becomes `BIND_MISSING`; in every other progress
state the rest of the call changes nothing. -/
theorem C4_probe_iff_spotted (fs : Filesys) (p : PathInfo) (s : RunState) (b : Binding)
    (hb : (scanPhase fs p s).store p.key = some b) :
    (b.progress = Progress.spotted →
      ((∃ t, fs.fileTime b.name = some t ∧
          (timestamp_from_path fs p s).2 =
            { scanPhase fs p s with
              store := storeInsert (scanPhase fs p s).store p.key
                ⟨b.name, b.scanned, Progress.found, timestamp_copy t⟩,
              probes := (scanPhase fs p s).probes ++ [b.name] }) ∨
        (fs.fileTime b.name = none ∧
          (timestamp_from_path fs p s).2 =
            { scanPhase fs p s with
              store := storeInsert (scanPhase fs p s).store p.key
                ⟨b.name, b.scanned, Progress.missing, b.time⟩,
              probes := (scanPhase fs p s).probes ++ [b.name] }))) ∧
    (b.progress ≠ Progress.spotted → (timestamp_from_path fs p s).2 = scanPhase fs p s) := by
  constructor
  · intro hsp
    rcases hft : fs.fileTime b.name with _ | t
    · exact Or.inr ⟨rfl, probePhase_spotted_failure fs hb hsp hft⟩
    · exact Or.inl ⟨t, rfl, probePhase_spotted_success fs hb hsp hft⟩
  · intro hns
    exact probePhase_of_not_spotted fs hb hns

/-- Witness for C4 at a concrete input: the scan of directory `"d"` spots
`"s"` without a timestamp, and the subsequent probe appends `"s"` to the
probe log. -/
theorem C4_witness :
    (scanPhase fsSpot pS RunState.start).store pS.key =
      some (⟨"s", false, Progress.spotted, ⟨3, 0⟩⟩ : Binding) ∧
    (timestamp_from_path fsSpot pS RunState.start).2.probes =
      (scanPhase fsSpot pS RunState.start).probes ++ ["s"] := by
  refine ⟨by decide, ?_⟩
  have h := (C4_probe_iff_spotted fsSpot pS RunState.start
    ⟨"s", false, Progress.spotted, ⟨3, 0⟩⟩ (by decide)).1 rfl
  rcases h with ⟨t, _, hstate⟩ | ⟨_, hstate⟩ <;> rw [hstate]

/-- C5: within a run, once a binding's progress is `BIND_FOUND` or
`BIND_MISSING`, no later sequence of `timestamp_from_path` queries and
`time_enter` scan ingestions ever sets it back to `BIND_INIT` or
`BIND_NOENTRY`. -/
theorem C5_no_regression (fs : Filesys) (ops : List CacheOp) (s : RunState) (k : String)
    (b : Binding) (hb : s.store k = some b)
    (hp : b.progress = Progress.found ∨ b.progress = Progress.missing) :
    ∃ b', (runOps fs ops s).store k = some b' ∧
      b'.progress ≠ Progress.init ∧ b'.progress ≠ Progress.noentry := by
  have h0 : ProgAt (fun pr => pr ≠ Progress.init ∧ pr ≠ Progress.noentry) s.store k :=
    ⟨b, hb, by rcases hp with h | h <;> simp [h]⟩
  obtain ⟨b', hb', h1, h2⟩ := runOps_goodAt fs ops s h0
  exact ⟨b', hb', h1, h2⟩

/-- Witness for C5 at a concrete input: a `Found` binding for `"x"`, hit by a
scan-ingestion that reports `"x"` without a timestamp. -/
theorem C5_witness :
    (sFound.store "x" = some (⟨"x", false, Progress.found, ⟨5, 0⟩⟩ : Binding) ∧
      ((⟨"x", false, Progress.found, ⟨5, 0⟩⟩ : Binding).progress = Progress.found ∨
        (⟨"x", false, Progress.found, ⟨5, 0⟩⟩ : Binding).progress = Progress.missing)) ∧
    ∃ b', (runOps fsEmpty [CacheOp.scanEntry "x" false ⟨7, 7⟩] sFound).store "x" = some b' ∧
      b'.progress ≠ Progress.init ∧ b'.progress ≠ Progress.noentry :=
  ⟨⟨by decide, by decide⟩,
    C5_no_regression fsEmpty [CacheOp.scanEntry "x" false ⟨7, 7⟩] sFound "x"
      ⟨"x", false, Progress.found, ⟨5, 0⟩⟩ (by decide) (by decide)⟩

/-- C6 counterexample: on the concrete empty filesystem, querying `"f"`,
calling `timestamp_done`, and querying `"f"` again does *not* produce the
same answer as a fresh query - `timestamp_done` never resets the static
`bindhash` pointer (timestamp.c lines 342-349), so the second query runs on
the freed table (undefined behaviour, `none`) instead of recreating the
cache. -/
theorem C6_counterexample :
    ((timestamp_from_path_run fsEmpty pF HashPtr.null).bind fun r =>
      (timestamp_done r.2).bind fun h =>
        (timestamp_from_path_run fsEmpty pF h).map Prod.fst) ≠
    (timestamp_from_path_run fsEmpty pF HashPtr.null).map Prod.fst := by
  decide

/-- C6 amended: `timestamp_done` on a live table destroys the table but
leaves the pointer set (dangling) rather than null, so a subsequent
`timestamp_from_path` does not recreate the cache - it dereferences the freed
table, which is undefined behaviour (modelled as `none`); only from the
never-created state is `timestamp_done` a harmless no-op.  Shutdown must be
the last operation of a run. -/
theorem C6_done_leaves_dangling (fs : Filesys) (p : PathInfo) (s : RunState) :
    timestamp_done (HashPtr.live s) = some HashPtr.dangling ∧
    timestamp_from_path_run fs p HashPtr.dangling = none ∧
    timestamp_done HashPtr.null = some HashPtr.null :=
  ⟨rfl, rfl, rfl⟩

/-- C7 counterexample: at `a = (2^31, 0)` (a valid `time_t`, January 2038)
and `b = (0, 0)`, the `time_t` difference `2^31` truncated to the 32-bit
`int` return value is `-2^31`, so `timestamp_cmp` reports "precedes" although
`a` follows `b` in the seconds-then-subseconds order. -/
theorem C7_counterexample :
    ¬((timestamp_cmp ⟨2147483648, 0⟩ ⟨0, 0⟩ < 0 ↔
        specPrecedes ⟨2147483648, 0⟩ ⟨0, 0⟩) ∧
      (timestamp_cmp ⟨2147483648, 0⟩ ⟨0, 0⟩ = 0 ↔
        (⟨2147483648, 0⟩ : Timestamp) = ⟨0, 0⟩) ∧
      (0 < timestamp_cmp ⟨2147483648, 0⟩ ⟨0, 0⟩ ↔
        specPrecedes ⟨0, 0⟩ ⟨2147483648, 0⟩)) := by
  decide

/-- C7 amended: whenever both the seconds difference and the sub-second
difference of `a` and `b` fit in the 32-bit `int` through which
`timestamp_cmp` returns, the sign of `timestamp_cmp a b` characterizes the
seconds-then-subseconds order: negative iff `a` precedes `b`, zero iff
`a = b`, positive iff `a` follows `b`. -/
theorem C7_cmp_trichotomy (a b : Timestamp)
    (hs1 : -2147483648 < a.secs - b.secs) (hs2 : a.secs - b.secs < 2147483648)
    (hn1 : -2147483648 < a.nsecs - b.nsecs) (hn2 : a.nsecs - b.nsecs < 2147483648) :
    (timestamp_cmp a b < 0 ↔ specPrecedes a b) ∧
    (timestamp_cmp a b = 0 ↔ a = b) ∧
    (0 < timestamp_cmp a b ↔ specPrecedes b a) := by
  obtain ⟨sa, na⟩ := a
  obtain ⟨sb, nb⟩ := b
  simp only [timestamp_cmp, toInt32, specPrecedes, Timestamp.mk.injEq] at *
  split_ifs with hs <;> omega

/-- Witness for C7 at a concrete input: `a = (5, 2)` and `b = (5, 1)`. -/
theorem C7_witness :
    ((-2147483648 < (⟨5, 2⟩ : Timestamp).secs - (⟨5, 1⟩ : Timestamp).secs ∧
        (⟨5, 2⟩ : Timestamp).secs - (⟨5, 1⟩ : Timestamp).secs < 2147483648) ∧
      (-2147483648 < (⟨5, 2⟩ : Timestamp).nsecs - (⟨5, 1⟩ : Timestamp).nsecs ∧
        (⟨5, 2⟩ : Timestamp).nsecs - (⟨5, 1⟩ : Timestamp).nsecs < 2147483648)) ∧
    ((timestamp_cmp ⟨5, 2⟩ ⟨5, 1⟩ < 0 ↔ specPrecedes ⟨5, 2⟩ ⟨5, 1⟩) ∧
      (timestamp_cmp ⟨5, 2⟩ ⟨5, 1⟩ = 0 ↔ (⟨5, 2⟩ : Timestamp) = ⟨5, 1⟩) ∧
      (0 < timestamp_cmp ⟨5, 2⟩ ⟨5, 1⟩ ↔ specPrecedes ⟨5, 1⟩ ⟨5, 2⟩)) :=
  ⟨⟨⟨by decide, by decide⟩, by decide, by decide⟩,
    C7_cmp_trichotomy ⟨5, 2⟩ ⟨5, 1⟩ (by decide) (by decide) (by decide) (by decide)⟩

/-- C8 counterexample: at `a = (0, 0)` and `b = (2^31, 0)` the truncated
comparison reports `b` as smaller, so `timestamp_max` picks `b` while
`timestamp_cmp (timestamp_max a b) a` is `-2^31 < 0`. -/
theorem C8_counterexample :
    ¬(0 ≤ timestamp_cmp (timestamp_max ⟨0, 0⟩ ⟨2147483648, 0⟩) ⟨0, 0⟩ ∧
      0 ≤ timestamp_cmp (timestamp_max ⟨0, 0⟩ ⟨2147483648, 0⟩) ⟨2147483648, 0⟩) := by
  decide

/-- C8 amended: whenever both the seconds difference and the sub-second
difference of `a` and `b` fit in the 32-bit `int` through which
`timestamp_cmp` returns, `timestamp_max a b` compares greater-or-equal to
both arguments. -/
theorem C8_max_ge (a b : Timestamp)
    (hs1 : -2147483648 < a.secs - b.secs) (hs2 : a.secs - b.secs < 2147483648)
    (hn1 : -2147483648 < a.nsecs - b.nsecs) (hn2 : a.nsecs - b.nsecs < 2147483648) :
    0 ≤ timestamp_cmp (timestamp_max a b) a ∧ 0 ≤ timestamp_cmp (timestamp_max a b) b := by
  unfold timestamp_max
  by_cases hc : 0 < timestamp_cmp a b
  · rw [if_pos hc]
    exact ⟨le_of_eq (timestamp_cmp_self a).symm, le_of_lt hc⟩
  · rw [if_neg hc]
    refine ⟨?_, le_of_eq (timestamp_cmp_self b).symm⟩
    rw [show timestamp_copy b = b from rfl, timestamp_cmp_antisymm hs1 hs2 hn1 hn2]
    omega

/-- Witness for C8 at a concrete input: `a = (5, 2)` and `b = (5, 1)`. -/
theorem C8_witness :
    ((-2147483648 < (⟨5, 2⟩ : Timestamp).secs - (⟨5, 1⟩ : Timestamp).secs ∧
        (⟨5, 2⟩ : Timestamp).secs - (⟨5, 1⟩ : Timestamp).secs < 2147483648) ∧
      (-2147483648 < (⟨5, 2⟩ : Timestamp).nsecs - (⟨5, 1⟩ : Timestamp).nsecs ∧
        (⟨5, 2⟩ : Timestamp).nsecs - (⟨5, 1⟩ : Timestamp).nsecs < 2147483648)) ∧
    (0 ≤ timestamp_cmp (timestamp_max ⟨5, 2⟩ ⟨5, 1⟩) ⟨5, 2⟩ ∧
      0 ≤ timestamp_cmp (timestamp_max ⟨5, 2⟩ ⟨5, 1⟩) ⟨5, 1⟩) :=
  ⟨⟨⟨by decide, by decide⟩, by decide, by decide⟩,
    C8_max_ge ⟨5, 2⟩ ⟨5, 1⟩ (by decide) (by decide) (by decide) (by decide)⟩

/-- C9: one `time_enter` callback invocation for an entry leaves the entry's
binding with exactly the scanner-supplied time and with progress `BIND_FOUND`
when the scanner attached a timestamp and `BIND_SPOTTED` otherwise -
regardless of the binding's prior progress and time, so a `BIND_FOUND`
binding is clobbered to `BIND_SPOTTED` by a later timestamp-less scan. -/
theorem C9_enter_overwrites (st : Store) (e : String × Bool × Timestamp) :
    ∃ b', time_enter st e e.1 = some b' ∧ b'.time = e.2.2 ∧
      b'.progress = (if e.2.1 then Progress.found else Progress.spotted) := by
  unfold time_enter
  rcases hk : st e.1 with _ | b
  · exact ⟨_, storeInsert_self _ _ _, rfl, rfl⟩
  · exact ⟨_, storeInsert_self _ _ _, rfl, rfl⟩

/-- C10: once a binding is `BIND_MISSING`, a later `timestamp_from_path` for
the same key returns the empty timestamp and changes nothing at all - in
particular it never invokes the `file_time` probe again (the probe runs only
from `BIND_SPOTTED`). -/
theorem C10_missing_stable (fs : Filesys) (p : PathInfo) (s : RunState) (b : Binding)
    (hb : s.store p.key = some b) (hm : b.progress = Progress.missing) :
    timestamp_from_path fs p s = (timestamp_clear, s) := by
  have h1 : scanPhase fs p s = s := scanPhase_of_not_init fs p hb (by simp [hm])
  have h2 : probePhase fs p.key s = s := probePhase_of_not_spotted fs hb (by simp [hm])
  show (returnPhase p.key (probePhase fs p.key (scanPhase fs p s)),
      probePhase fs p.key (scanPhase fs p s)) = (timestamp_clear, s)
  rw [h1, h2, returnPhase_eq hb, if_neg (by simp [hm])]

/-- Witness for C10 at a concrete input: a `Missing` binding for `"f"`. -/
theorem C10_witness :
    (sMiss.store pF.key = some (⟨"f", false, Progress.missing, ⟨0, 0⟩⟩ : Binding) ∧
      (⟨"f", false, Progress.missing, ⟨0, 0⟩⟩ : Binding).progress = Progress.missing) ∧
    timestamp_from_path fsEmpty pF sMiss = (timestamp_clear, sMiss) :=
  ⟨⟨by decide, rfl⟩,
    C10_missing_stable fsEmpty pF sMiss ⟨"f", false, Progress.missing, ⟨0, 0⟩⟩ (by decide) rfl⟩
